import Mathlib

/-!
Verification development for the brain-down workspace state layer.

The definitions below are a shallow embedding of the TypeScript sources:
  - the document session store (mapStore.ts),
  - the vault configuration store (vaultStore.ts),
  - the vault name/path validation rules (vaultConfig.ts),
  - the notification (toast) queue (toastStore.ts).

JavaScript numbers appear only as opaque stored values in the claims under
study (viewport coordinates, stroke widths, ...), so they are modelled by
Int, which has decidable equality; no floating point arithmetic occurs.
JavaScript strings are modelled by Lean String, with explicit models of
the JS trim / toLowerCase / regexp behaviour where the code relies on it.
-/

namespace BrainDown

/-! ## Data model (types.ts) -/

structure Point where
  x : Int
  y : Int
deriving DecidableEq, Repr

structure Size where
  width : Int
  height : Int
deriving DecidableEq, Repr

structure NodeStyle where
  fillColor : Option String
  strokeColor : String
  strokeWidth : Int
  fontSize : Int
  fontFamily : String
  textColor : String
  padding : Int
deriving DecidableEq, Repr

/-- A node is one of two variants (`type: 'note'` or `type: 'mindmap'`),
sharing `id`, `position`, `size`, `style`. -/
inductive Node where
  | note (id : String) (position : Point) (size : Size) (style : NodeStyle)
      (content : String)
  | mindmap (id : String) (position : Point) (size : Size) (style : NodeStyle)
      (content : String) (parentId : Option String) (childrenIds : List String)
deriving DecidableEq, Repr

/-- The shared `id` field of either node variant. -/
def Node.id : Node → String
  | .note i _ _ _ _ => i
  | .mindmap i _ _ _ _ _ _ => i

structure EdgeStyle where
  color : String
  startStyle : Option String
  endStyle : Option String
deriving DecidableEq, Repr

structure EdgeData where
  id : String
  sourceNodeId : String
  targetNodeId : String
  style : EdgeStyle
deriving DecidableEq, Repr

structure FileMeta where
  name : String
  id : String
  createdAt : String
  modifiedAt : String
deriving DecidableEq, Repr

structure Viewport where
  x : Int
  y : Int
  zoom : Int
deriving DecidableEq, Repr

structure CanvasState where
  viewport : Viewport
  background : String
deriving DecidableEq, Repr

structure MSchemaFile where
  version : Nat
  meta : FileMeta
  canvas : CanvasState
  nodes : List Node
  edges : List EdgeData
deriving DecidableEq, Repr

/-! ## Document session store (mapStore.ts)

`MapState` is the store's state; each store method is embedded as a pure
function from the old state to the new one.  `update(state => ...)` in the
source becomes direct state transformation; the `if (!state.file) return
state` guards become matches on the `file` option. -/

structure MapState where
  file : Option MSchemaFile
  filePath : Option String
  isDirty : Bool
deriving DecidableEq, Repr

/-- `initialState` of mapStore.ts: nothing loaded, not dirty. -/
def MapState.empty : MapState := ⟨none, none, false⟩

/-- `loadMap(file, filePath)`: replace everything, dirty cleared. -/
def loadMap (_s : MapState) (file : MSchemaFile) (filePath : String) : MapState :=
  ⟨some file, some filePath, false⟩

/-- `updateFile(file)`: whole-document replace.  Note: the source has no
`if (!state.file)` guard here; it applies in every state and marks dirty. -/
def updateFile (s : MapState) (file : MSchemaFile) : MapState :=
  { s with file := some file, isDirty := true }

/-- `addNode(node)`: appends the node; no-op when nothing is loaded. -/
def addNode (s : MapState) (node : Node) : MapState :=
  match s.file with
  | none => s
  | some f =>
    { s with file := some { f with nodes := f.nodes ++ [node] }, isDirty := true }

/-- The partial update object `Partial<Node>` of `updateNode`: each field
optionally present.  The JS spread `{ ...n, ...updates }` keeps the node's
variant and overrides exactly the fields present in `updates`. -/
structure NodeUpdates where
  position : Option Point := none
  size : Option Size := none
  style : Option NodeStyle := none
  content : Option String := none
  parentId : Option (Option String) := none
  childrenIds : Option (List String) := none
deriving DecidableEq, Repr

/-- The spread merge `{ ...n, ...updates } as Node`. -/
def Node.merge (n : Node) (u : NodeUpdates) : Node :=
  match n with
  | .note i p sz st c =>
    .note i (u.position.getD p) (u.size.getD sz) (u.style.getD st) (u.content.getD c)
  | .mindmap i p sz st c par ch =>
    .mindmap i (u.position.getD p) (u.size.getD sz) (u.style.getD st)
      (u.content.getD c) (u.parentId.getD par) (u.childrenIds.getD ch)

/-- `updateNode(nodeId, updates)`: partial merge keyed by id; no-op when
nothing is loaded. -/
def updateNode (s : MapState) (nodeId : String) (updates : NodeUpdates) : MapState :=
  match s.file with
  | none => s
  | some f =>
    { s with
      file := some { f with
        nodes := f.nodes.map (fun n => if n.id == nodeId then n.merge updates else n) },
      isDirty := true }

/-- `removeNode(nodeId)`: drops the node and every edge whose source or
target is `nodeId`; no-op when nothing is loaded. -/
def removeNode (s : MapState) (nodeId : String) : MapState :=
  match s.file with
  | none => s
  | some f =>
    { s with
      file := some { f with
        nodes := f.nodes.filter (fun n => n.id != nodeId),
        edges := f.edges.filter
          (fun e => e.sourceNodeId != nodeId && e.targetNodeId != nodeId) },
      isDirty := true }

/-- `addEdge(edge)`: appends the edge; no-op when nothing is loaded. -/
def addEdge (s : MapState) (edge : EdgeData) : MapState :=
  match s.file with
  | none => s
  | some f =>
    { s with file := some { f with edges := f.edges ++ [edge] }, isDirty := true }

/-- `removeEdge(edgeId)`: drops the edge with that id; no-op when nothing is
loaded. -/
def removeEdge (s : MapState) (edgeId : String) : MapState :=
  match s.file with
  | none => s
  | some f =>
    { s with
      file := some { f with edges := f.edges.filter (fun e => e.id != edgeId) },
      isDirty := true }

/-- `updateViewport(viewport)`: replaces `canvas.viewport` while loaded;
deliberately does not touch `isDirty`. -/
def updateViewport (s : MapState) (vp : Viewport) : MapState :=
  match s.file with
  | none => s
  | some f =>
    { s with file := some { f with canvas := { f.canvas with viewport := vp } } }

/-- `markSaved()`: clears the dirty flag and stamps `meta.modifiedAt`; the
wall-clock timestamp written by `new Date().toISOString()` is passed in
explicitly. -/
def markSaved (s : MapState) (nowIso : String) : MapState :=
  { s with
    isDirty := false,
    file := s.file.map (fun f => { f with meta := { f.meta with modifiedAt := nowIso } }) }

/-- `closeMap()`: reset to the initial state. -/
def closeMap (_s : MapState) : MapState := MapState.empty

/-! ## Validation rules (vaultConfig.ts)

String-level helpers model the ECMAScript behaviour the code relies on:
`String.prototype.trim` and the regexp class `\s` both use the WhiteSpace
and LineTerminator code points; `toLowerCase` is modelled by ASCII
lowercasing (`Char.toLower`), which agrees with JS on every string the
validation rules can accept (the allowed character class is ASCII). -/

structure VaultEntry where
  id : String
  name : String
  path : String
deriving DecidableEq, Repr

/-- ECMAScript WhiteSpace ∪ LineTerminator: the set matched by `\s` and
stripped by `trim`. -/
def jsWhitespace (c : Char) : Bool :=
  let n := c.toNat
  n = 0x20 || n = 0x09 || n = 0x0a || n = 0x0d || n = 0x0b || n = 0x0c ||
  n = 0xa0 || n = 0x1680 || (0x2000 ≤ n && n ≤ 0x200a) ||
  n = 0x2028 || n = 0x2029 || n = 0x202f || n = 0x205f || n = 0x3000 || n = 0xfeff

/-- `name.trim()`: strips leading and trailing JS whitespace. -/
def jsTrim (s : String) : String :=
  ⟨((s.data.dropWhile jsWhitespace).reverse.dropWhile jsWhitespace).reverse⟩

/-- `s.toLowerCase()` (ASCII fragment, see module note). -/
def jsToLower (s : String) : String :=
  ⟨s.data.map Char.toLower⟩

/-- One character of the class `[a-zA-Z0-9\s\-_]` of `VAULT_NAME_PATTERN`. -/
def vaultNameChar (c : Char) : Bool :=
  c.isAlphanum || jsWhitespace c || c = '-' || c = '_'

/-- `VAULT_NAME_PATTERN.test(s)` with pattern `/^[a-zA-Z0-9\s\-_]+$/`. -/
def vaultNamePattern (s : String) : Bool :=
  !s.data.isEmpty && s.data.all vaultNameChar

/-- `v.id !== excludeId`: with `excludeId` absent (undefined) every entry
is counted. -/
def notExcluded (vid : String) (excludeId : Option String) : Bool :=
  match excludeId with
  | none => true
  | some e => vid != e

inductive ValidationResult where
  | valid : ValidationResult
  | invalid : String → ValidationResult
deriving DecidableEq, Repr

def ValidationResult.isValid : ValidationResult → Bool
  | .valid => true
  | .invalid _ => false

/-- `validateVaultName(name, existingVaults, excludeId?)` of vaultConfig.ts. -/
def validateVaultName (name : String) (existingVaults : List VaultEntry)
    (excludeId : Option String) : ValidationResult :=
  let trimmed := jsTrim name
  if trimmed ≠ name then
    .invalid ("Name cannot have leading or trailing whitespace")
  else if trimmed.data.length < 1 then
    .invalid ("Name is required")
  else if trimmed.data.length > 50 then
    .invalid ("Name must be 50 characters or less")
  else if !vaultNamePattern trimmed then
    .invalid ("Name can only contain letters, numbers, spaces, hyphens, and underscores")
  else if existingVaults.any
      (fun v => jsToLower v.name == jsToLower trimmed && notExcluded v.id excludeId) then
    .invalid ("A vault with this name already exists")
  else
    .valid

/-- `normalizePath(path)`: strip trailing `/` and `\`, unify `\` to `/`,
lowercase. -/
def normalizePath (path : String) : String :=
  let stripped := (path.data.reverse.dropWhile (fun c => c = '/' || c = '\\')).reverse
  let unified := stripped.map (fun c => if c = '\\' then '/' else c)
  ⟨unified.map Char.toLower⟩

/-- `isPathDuplicate(path, existingVaults, excludeId?)` of vaultConfig.ts. -/
def isPathDuplicate (path : String) (existingVaults : List VaultEntry)
    (excludeId : Option String) : Bool :=
  existingVaults.any
    (fun v => normalizePath v.path == normalizePath path && notExcluded v.id excludeId)

/-! ## Vault configuration store (vaultStore.ts)

Each operation acts on the ordered vault list; the external collaborators
are explicit parameters: `persistConfig` always succeeds in this model (its
failure is out of scope of the claims), `checkVaultAccessible` is a boolean
oracle on paths, and the fresh id produced by `generateId()` is passed in.
Errors thrown by the source become `Except.error`. -/

/-- `addVault(name, path)`: validate name, check path uniqueness, append a
fresh entry at the end.  Returns the new entry and the new list. -/
def addVault (vaults : List VaultEntry) (name path newId : String) :
    Except String (VaultEntry × List VaultEntry) :=
  match validateVaultName name vaults none with
  | .invalid e => .error e
  | .valid =>
    if isPathDuplicate path vaults none then
      .error ("A vault with this path already exists")
    else
      let newVault : VaultEntry := ⟨newId, jsTrim name, path⟩
      .ok (newVault, vaults ++ [newVault])

/-- `renameVault(id, newName)`: not-found check, validation excluding `id`,
then in-place name replacement. -/
def renameVault (vaults : List VaultEntry) (id newName : String) :
    Except String (List VaultEntry) :=
  if (vaults.findIdx? (fun v => v.id == id)).isNone then
    .error ("Vault not found")
  else
    match validateVaultName newName vaults (some id) with
    | .invalid e => .error e
    | .valid =>
      .ok (vaults.map (fun v => if v.id == id then { v with name := jsTrim newName } else v))

/-- `updateVaultPath(id, newPath)`: not-found check, duplicate-path check
excluding `id`, accessibility check, then in-place path replacement. -/
def updateVaultPath (vaults : List VaultEntry) (id newPath : String)
    (acc : String → Bool) : Except String (List VaultEntry) :=
  if (vaults.findIdx? (fun v => v.id == id)).isNone then
    .error ("Vault not found")
  else if isPathDuplicate newPath vaults (some id) then
    .error ("A vault with this path already exists")
  else if !acc newPath then
    .error ("The selected path is not accessible")
  else
    .ok (vaults.map (fun v => if v.id == id then { v with path := newPath } else v))

/-- `deleteVault(id)`: not-found check, then removal from the list. -/
def deleteVault (vaults : List VaultEntry) (id : String) :
    Except String (List VaultEntry) :=
  if (vaults.findIdx? (fun v => v.id == id)).isNone then
    .error ("Vault not found")
  else
    .ok (vaults.filter (fun v => v.id != id))

/-- Swap the entries at positions `i` and `i+1`
(`[a[i-1], a[i]] = [a[i], a[i-1]]` in the source). -/
def swapAdj (l : List VaultEntry) (i : Nat) : List VaultEntry :=
  match l.get? i, l.get? (i + 1) with
  | some a, some b => (l.set i b).set (i + 1) a
  | _, _ => l

/-- `moveVaultUp(id)`: silent no-op at the top or for an unknown id,
otherwise swap with the previous entry. -/
def moveVaultUp (vaults : List VaultEntry) (id : String) : List VaultEntry :=
  match vaults.findIdx? (fun v => v.id == id) with
  | none => vaults
  | some 0 => vaults
  | some (i + 1) => swapAdj vaults i

/-- `moveVaultDown(id)`: silent no-op at the bottom or for an unknown id,
otherwise swap with the next entry. -/
def moveVaultDown (vaults : List VaultEntry) (id : String) : List VaultEntry :=
  match vaults.findIdx? (fun v => v.id == id) with
  | none => vaults
  | some i =>
    if i + 1 ≥ vaults.length then vaults
    else swapAdj vaults i

/-- `addRecentFile(filePath)`: move-to-front with deduplication, capped at
10 entries. -/
def addRecentFile (recentFiles : List String) (filePath : String) : List String :=
  (filePath :: recentFiles.filter (fun f => f != filePath)).take 10

/-! ## Vault activation resolver (vaultStore.ts, the startup routine)

The `for` loop probes each vault's path with `checkVaultAccessible` and
breaks at the first success.  The embedding also records the list of paths
actually probed, in order, so that "stops at the first success" is a
provable statement.  The accessibility collaborator is a boolean oracle on
paths; `usedFallback` is `i > 0` for the loop index `i` at the break. -/

structure InitResult where
  probed : List String
  activated : Option VaultEntry
  usedFallback : Bool
  fallbackVaultName : Option String
  errorSet : Bool
deriving DecidableEq, Repr

/-- The probing loop, started at index `i`: returns the probed paths and,
when a vault passes, that vault together with the `i > 0` fallback flag. -/
def probeLoop (acc : String → Bool) (vaults : List VaultEntry) (i : Nat) :
    List String × Option (VaultEntry × Bool) :=
  match vaults with
  | [] => ([], none)
  | v :: rest =>
    if acc v.path then ([v.path], some (v, decide (0 < i)))
    else
      let r := probeLoop acc rest (i + 1)
      (v.path :: r.1, r.2)

/-- The startup activation routine (`initialize` in the source): empty list
is not an error; otherwise the first accessible vault is activated, with
the fallback report; if every probe fails, the all-vaults-inaccessible
error is set and nothing is activated. -/
def initVaults (vaults : List VaultEntry) (acc : String → Bool) : InitResult :=
  if vaults.isEmpty then
    { probed := [], activated := none, usedFallback := false,
      fallbackVaultName := none, errorSet := false }
  else
    match probeLoop acc vaults 0 with
    | (ps, some (v, fb)) =>
      { probed := ps, activated := some v, usedFallback := fb,
        fallbackVaultName := if fb then some v.name else none, errorSet := false }
    | (ps, none) =>
      { probed := ps, activated := none, usedFallback := false,
        fallbackVaultName := none, errorSet := true }

/-! ## Notification queue (toastStore.ts)

The store state carries the pending `setTimeout` callbacks explicitly as
`(deadline, toast id)` pairs in scheduling order, together with a logical
clock.  `elapse d` advances the clock and fires (in scheduling order) every
pending timer whose deadline has been reached, each performing the
idempotent `dismiss` of its toast id.  Toast ids `toast-${++idCounter}` are
modelled by the counter value itself. -/

inductive ToastType where
  | info | success | warning | error
deriving DecidableEq, Repr

structure Toast where
  id : Nat
  message : String
  type : ToastType
  duration : Nat
deriving DecidableEq, Repr

structure ToastState where
  toasts : List Toast
  timers : List (Nat × Nat)
  idCounter : Nat
  now : Nat
deriving DecidableEq, Repr

def ToastState.initial : ToastState := ⟨[], [], 0, 0⟩

/-- `add(message, type, duration)`: appends the toast in arrival order and,
iff `duration > 0`, schedules an auto-dismiss at `now + duration`.
Returns the new state and the fresh toast id. -/
def toastAdd (s : ToastState) (message : String) (ty : ToastType)
    (duration : Nat) : ToastState × Nat :=
  let id := s.idCounter + 1
  ({ s with
      idCounter := id,
      toasts := s.toasts ++ [⟨id, message, ty, duration⟩],
      timers := if duration > 0 then s.timers ++ [(s.now + duration, id)] else s.timers },
   id)

/-- `dismiss(id)`: removes the toast with that id if present (idempotent);
a pending timer for it is not cancelled (the fired callback is a no-op). -/
def toastDismiss (s : ToastState) (id : Nat) : ToastState :=
  { s with toasts := s.toasts.filter (fun t => t.id != id) }

/-- `clear()`: removes all toasts. -/
def toastClear (s : ToastState) : ToastState :=
  { s with toasts := [] }

/-- Advance the clock by `d` and fire every timer now due, in scheduling
order; each fired timer performs `dismiss` of its toast id. -/
def toastElapse (s : ToastState) (d : Nat) : ToastState :=
  let now := s.now + d
  let due := s.timers.filter (fun t => t.1 ≤ now)
  let rest := s.timers.filter (fun t => !(t.1 ≤ now))
  { s with
    now := now,
    toasts := due.foldl (fun ts t => ts.filter (fun tt => tt.id != t.2)) s.toasts,
    timers := rest }

/-- Well-formedness: every pending timer refers to an already allocated
toast id.  Holds in the initial state and is preserved by every operation. -/
def ToastState.wf (s : ToastState) : Bool :=
  s.timers.all (fun t => t.2 ≤ s.idCounter)

/-! ## Spec-side predicates for the validation claim

These two definitions follow the words of the specification (not the
source), for comparison against `validateVaultName`. -/

/-- The character class the spec names: letters, digits, space, underscore,
hyphen — with a plain space only, `[A-Za-z0-9 _-]`. -/
def specNameChar (c : Char) : Bool :=
  c.isAlphanum || c = ' ' || c = '_' || c = '-'

/-- The rejection condition exactly as the spec words it: the name differs
from its trimmed form, or the trimmed length is 0 or exceeds 50, or the
name contains a character outside `[A-Za-z0-9 _-]`, or some other entry
(excluding `excludeId`) has the same name case-insensitively. -/
def specNameInvalid (name : String) (existingVaults : List VaultEntry)
    (excludeId : Option String) : Bool :=
  name != jsTrim name ||
  (jsTrim name).data.length == 0 ||
  (jsTrim name).data.length > 50 ||
  name.data.any (fun c => !specNameChar c) ||
  existingVaults.any
    (fun v => jsToLower v.name == jsToLower name && notExcluded v.id excludeId)

/-- The amended rejection condition: as `specNameInvalid`, but the allowed
character class is the one the code's regexp actually uses,
`[a-zA-Z0-9\s\-_]` — any JS whitespace, not only the plain space. -/
def amendedNameInvalid (name : String) (existingVaults : List VaultEntry)
    (excludeId : Option String) : Bool :=
  name != jsTrim name ||
  (jsTrim name).data.length == 0 ||
  (jsTrim name).data.length > 50 ||
  name.data.any (fun c => !vaultNameChar c) ||
  existingVaults.any
    (fun v => jsToLower v.name == jsToLower name && notExcluded v.id excludeId)

/-! ## Uniqueness invariants of the vault list (spec section 8) -/

/-- Vault names are pairwise distinct case-insensitively. -/
def namesUnique (vs : List VaultEntry) : Prop :=
  (vs.map (fun v => jsToLower v.name)).Nodup

/-- Vault paths are pairwise distinct after normalization. -/
def pathsUnique (vs : List VaultEntry) : Prop :=
  (vs.map (fun v => normalizePath v.path)).Nodup

/-- Vault ids are pairwise distinct (entry identity). -/
def idsUnique (vs : List VaultEntry) : Prop :=
  (vs.map (fun v => v.id)).Nodup

/-! ## Concrete sample values (used by counterexamples and witnesses) -/

def sampleStyle : NodeStyle := ⟨none, "black", 1, 14, "sans", "black", 8⟩

def sampleNode : Node := .note "n1" ⟨0, 0⟩ ⟨100, 40⟩ sampleStyle "hello"

def sampleMeta : FileMeta := ⟨"Map", "f1", "t0", "t0"⟩

def sampleCanvas : CanvasState := ⟨⟨0, 0, 1⟩, "white"⟩

def sampleDoc : MSchemaFile := ⟨1, sampleMeta, sampleCanvas, [], []⟩

def sampleEdge : EdgeData := ⟨"e1", "n1", "n2", ⟨"black", none, none⟩⟩

/-- An edge whose endpoints name no existing node (a dangling reference,
reachable via `addEdge`). -/
def danglingDoc : MSchemaFile := ⟨1, sampleMeta, sampleCanvas, [], [⟨"e1", "x", "y", ⟨"black", none, none⟩⟩]⟩

def loadedState : MapState := ⟨some sampleDoc, some ("a.mschema"), false⟩

def danglingState : MapState := ⟨some danglingDoc, some ("a.mschema"), false⟩

end BrainDown

namespace BrainDown

/-! ## Theorems -/

/-- C4 counterexample: the claim says every mutating operation, `updateFile`
included, leaves the session state completely unchanged in the Empty state;
but `updateFile` has no Empty-state guard — applied to the empty state it
loads the document and sets the dirty flag. -/
theorem updateFile_applies_when_empty :
    MapState.empty.file = none ∧ updateFile MapState.empty sampleDoc ≠ MapState.empty := by
  refine ⟨rfl, ?_⟩
  intro h
  have : (updateFile MapState.empty sampleDoc).isDirty = MapState.empty.isDirty := by rw [h]
  simp [updateFile, MapState.empty] at this

/-- C4 (amended): `addNode`, `updateNode`, `removeNode`, `addEdge` and
`removeEdge` are no-ops in the Empty state; `updateFile` applies its
whole-document replacement and sets the dirty flag in every state, the
Empty one included; in the Loaded state every operation applies its change
and sets the dirty flag. -/
theorem mapStore_mutations_empty_guard (s : MapState) (n : Node) (nid : String)
    (u : NodeUpdates) (e : EdgeData) (eid : String) (d : MSchemaFile) :
    (s.file = none →
      addNode s n = s ∧ updateNode s nid u = s ∧ removeNode s nid = s ∧
      addEdge s e = s ∧ removeEdge s eid = s) ∧
    updateFile s d = { s with file := some d, isDirty := true } ∧
    (∀ f, s.file = some f →
      addNode s n =
        { s with file := some { f with nodes := f.nodes ++ [n] }, isDirty := true } ∧
      updateNode s nid u =
        { s with
          file := some { f with
            nodes := f.nodes.map (fun m => if m.id == nid then m.merge u else m) },
          isDirty := true } ∧
      removeNode s nid =
        { s with
          file := some { f with
            nodes := f.nodes.filter (fun m => m.id != nid),
            edges := f.edges.filter
              (fun ed => ed.sourceNodeId != nid && ed.targetNodeId != nid) },
          isDirty := true } ∧
      addEdge s e =
        { s with file := some { f with edges := f.edges ++ [e] }, isDirty := true } ∧
      removeEdge s eid =
        { s with
          file := some { f with
            edges := f.edges.filter (fun ed => ed.id != eid) },
          isDirty := true }) := by
  obtain ⟨file, fp, dty⟩ := s
  cases file with
  | none =>
    exact ⟨fun _ => ⟨rfl, rfl, rfl, rfl, rfl⟩, rfl, fun f hf => by cases hf⟩
  | some f0 =>
    refine ⟨?_, rfl, ?_⟩
    · intro h
      cases h
    · intro f hf
      cases hf
      exact ⟨rfl, rfl, rfl, rfl, rfl⟩

/-- Witness for C4 (amended) at concrete inputs: `addNode` on the empty
state is a no-op, and on a loaded state it marks dirty. -/
theorem mapStore_mutations_empty_guard_witness :
    addNode MapState.empty sampleNode = MapState.empty ∧
    (addNode loadedState sampleNode).isDirty = true := by
  have h1 := mapStore_mutations_empty_guard MapState.empty sampleNode "n1" {} sampleEdge "e1" sampleDoc
  have h2 := mapStore_mutations_empty_guard loadedState sampleNode "n1" {} sampleEdge "e1" sampleDoc
  refine ⟨(h1.1 rfl).1, ?_⟩
  rw [(h2.2.2 sampleDoc rfl).1]

/-- C5: after `loadMap` then `markSaved` and no further mutation the dirty
flag is false; any single mutation on a loaded document sets it; a sequence
of `updateViewport` calls never changes the dirty flag, while each call
replaces `canvas.viewport` of a loaded document. -/
theorem dirty_flag_lifecycle (s : MapState) (doc f : MSchemaFile)
    (loc nowIso : String) (n : Node) (nid : String) (u : NodeUpdates)
    (e : EdgeData) (eid : String) (vps : List Viewport) (vp : Viewport) :
    (markSaved (loadMap s doc loc) nowIso).isDirty = false ∧
    (s.file = some f →
      (addNode s n).isDirty = true ∧ (removeNode s nid).isDirty = true ∧
      (addEdge s e).isDirty = true ∧ (removeEdge s eid).isDirty = true ∧
      (updateNode s nid u).isDirty = true) ∧
    (vps.foldl updateViewport s).isDirty = s.isDirty ∧
    (s.file = some f →
      (updateViewport s vp).file =
        some { f with canvas := { f.canvas with viewport := vp } }) := by
  refine ⟨rfl, ?_, ?_, ?_⟩
  · intro hf
    obtain ⟨file, fp, dty⟩ := s
    cases hf
    exact ⟨rfl, rfl, rfl, rfl, rfl⟩
  · induction vps generalizing s with
    | nil => rfl
    | cons vp0 rest ih =>
      have hstep : (updateViewport s vp0).isDirty = s.isDirty := by
        obtain ⟨file, fp, dty⟩ := s
        cases file <;> rfl
      rw [List.foldl_cons, ih (updateViewport s vp0), hstep]
  · intro hf
    obtain ⟨file, fp, dty⟩ := s
    cases hf
    rfl

/-- Witness for C5 at concrete inputs: load–save leaves the flag clear, a
single `addNode` sets it, and a two-step viewport sequence leaves it
untouched. -/
theorem dirty_flag_lifecycle_witness :
    (markSaved (loadMap MapState.empty sampleDoc ("a.mschema")) ("t1")).isDirty = false ∧
    (addNode loadedState sampleNode).isDirty = true ∧
    ([⟨1, 2, 3⟩, ⟨4, 5, 6⟩].foldl updateViewport loadedState).isDirty = loadedState.isDirty := by
  have h := dirty_flag_lifecycle loadedState sampleDoc sampleDoc ("a.mschema") ("t1")
    sampleNode "n1" {} sampleEdge "e1" [⟨1, 2, 3⟩, ⟨4, 5, 6⟩] ⟨1, 2, 3⟩
  exact ⟨(dirty_flag_lifecycle MapState.empty sampleDoc sampleDoc ("a.mschema") ("t1")
      sampleNode "n1" {} sampleEdge "e1" [] ⟨0, 0, 1⟩).1,
    (h.2.1 rfl).1, h.2.2.1⟩

/-- C6: on a loaded document, `removeNode id` keeps exactly the nodes with a
different id and exactly the edges touching `id` at neither endpoint, in
their original order, with canvas and metadata untouched. -/
theorem removeNode_removes_exactly_incident_edges (s : MapState)
    (f : MSchemaFile) (nid : String) (hf : s.file = some f) :
    ∃ g, (removeNode s nid).file = some g ∧
      g.nodes = f.nodes.filter (fun n => n.id != nid) ∧
      g.edges = f.edges.filter
        (fun e => e.sourceNodeId != nid && e.targetNodeId != nid) ∧
      (∀ n, n ∈ g.nodes ↔ n ∈ f.nodes ∧ n.id ≠ nid) ∧
      (∀ e, e ∈ g.edges ↔
        e ∈ f.edges ∧ e.sourceNodeId ≠ nid ∧ e.targetNodeId ≠ nid) ∧
      g.nodes.Sublist f.nodes ∧ g.edges.Sublist f.edges ∧
      g.canvas = f.canvas ∧ g.meta = f.meta := by
  obtain ⟨file, fp, dty⟩ := s
  cases hf
  refine ⟨_, rfl, rfl, rfl, ?_, ?_, List.filter_sublist _, List.filter_sublist _, rfl, rfl⟩
  · intro n
    simp [List.mem_filter]
  · intro e
    simp [List.mem_filter]

/-- Witness for C6: removing node `n1` from a concrete two-edge document
drops the incident edge and keeps the other. -/
theorem removeNode_removes_exactly_incident_edges_witness :
    ∃ g, (removeNode
        ⟨some ⟨1, sampleMeta, sampleCanvas, [sampleNode],
          [sampleEdge, ⟨"e2", "a", "b", ⟨"black", none, none⟩⟩]⟩,
         some ("a.mschema"), false⟩ "n1").file = some g ∧
      g.nodes = [] ∧ g.edges = [⟨"e2", "a", "b", ⟨"black", none, none⟩⟩] := by
  obtain ⟨g, hg, hn, he, -⟩ := removeNode_removes_exactly_incident_edges
    ⟨some ⟨1, sampleMeta, sampleCanvas, [sampleNode],
      [sampleEdge, ⟨"e2", "a", "b", ⟨"black", none, none⟩⟩]⟩,
     some ("a.mschema"), false⟩
    ⟨1, sampleMeta, sampleCanvas, [sampleNode],
      [sampleEdge, ⟨"e2", "a", "b", ⟨"black", none, none⟩⟩]⟩ "n1" rfl
  refine ⟨g, hg, ?_, ?_⟩
  · rw [hn]; decide
  · rw [he]; decide

/-- C10 counterexample: `removeNode` with an id absent from the node ids is
claimed to leave the document unchanged, but it still removes a dangling
edge whose endpoint names that id. -/
theorem removeNode_absent_id_removes_dangling_edges :
    (∀ n ∈ danglingDoc.nodes, n.id ≠ "x") ∧
    danglingState.file = some danglingDoc ∧
    (removeNode danglingState "x").file ≠ some danglingDoc := by
  refine ⟨by decide, rfl, ?_⟩
  intro h
  have : (removeNode danglingState "x").file.map (fun f => f.edges) =
      (some danglingDoc).map (fun f => f.edges) := by rw [h]
  simp [removeNode, danglingState, danglingDoc] at this

/-- C10 (amended): a mutation aimed at an absent id marks the session dirty
without changing any content — for `updateNode` and `removeEdge` it is
enough that the id is absent from the node (resp. edge) ids; for
`removeNode` the id must also appear at no edge endpoint, since dangling
edges naming it are removed. -/
theorem absent_id_mutations_frame (s : MapState) (f : MSchemaFile)
    (nid eid : String) (u : NodeUpdates) (hf : s.file = some f) :
    ((∀ n ∈ f.nodes, n.id ≠ nid) →
      (updateNode s nid u).file = some f ∧ (updateNode s nid u).isDirty = true) ∧
    ((∀ n ∈ f.nodes, n.id ≠ nid) →
      (∀ e ∈ f.edges, e.sourceNodeId ≠ nid ∧ e.targetNodeId ≠ nid) →
      (removeNode s nid).file = some f ∧ (removeNode s nid).isDirty = true) ∧
    ((∀ e ∈ f.edges, e.id ≠ eid) →
      (removeEdge s eid).file = some f ∧ (removeEdge s eid).isDirty = true) := by
  obtain ⟨file, fp, dty⟩ := s
  cases hf
  refine ⟨fun hn => ⟨?_, rfl⟩, fun hn he => ⟨?_, rfl⟩, fun he => ⟨?_, rfl⟩⟩
  · show some { f with
      nodes := f.nodes.map (fun m => if m.id == nid then m.merge u else m) } = some f
    have : f.nodes.map (fun m => if m.id == nid then m.merge u else m) = f.nodes.map id := by
      refine List.map_congr_left (fun m hm => ?_)
      rw [if_neg (by simpa using hn m hm)]
      rfl
    rw [this, List.map_id]
  · show some { f with
      nodes := f.nodes.filter (fun m => m.id != nid),
      edges := f.edges.filter
        (fun e => e.sourceNodeId != nid && e.targetNodeId != nid) } = some f
    have h1 : f.nodes.filter (fun m => m.id != nid) = f.nodes :=
      List.filter_eq_self.mpr (fun m hm => by simpa using hn m hm)
    have h2 : f.edges.filter (fun e => e.sourceNodeId != nid && e.targetNodeId != nid) =
        f.edges :=
      List.filter_eq_self.mpr (fun e hEdge => by
        obtain ⟨hs, ht⟩ := he e hEdge
        simp [hs, ht])
    rw [h1, h2]
  · show some { f with edges := f.edges.filter (fun e => e.id != eid) } = some f
    have h3 : f.edges.filter (fun e => e.id != eid) = f.edges :=
      List.filter_eq_self.mpr (fun e hEdge => by simpa using he e hEdge)
    rw [h3]

/-- Witness for C10 (amended): on a concrete loaded document, `updateNode`
with an unknown id leaves the document as it was and sets the dirty flag. -/
theorem absent_id_mutations_frame_witness :
    (updateNode loadedState "zz" {}).file = some sampleDoc ∧
    (updateNode loadedState "zz" {}).isDirty = true := by
  have h := absent_id_mutations_frame loadedState sampleDoc "zz" "zz" {} rfl
  exact h.1 (by decide)

/-- Helper: the adjacent swap, written as two `set`s in the embedding,
equals the take/cons/cons/drop decomposition. -/
theorem swapAdj_eq (l : List VaultEntry) (i : Nat) (a b : VaultEntry)
    (ha : l.get? i = some a) (hb : l.get? (i + 1) = some b) :
    swapAdj l i = l.take i ++ b :: a :: l.drop (i + 2) := by
  induction i generalizing l with
  | zero =>
    match l, ha, hb with
    | x :: y :: t, ha, hb =>
      simp only [List.get?_cons_zero, Option.some.injEq] at ha
      simp only [List.get?_cons_succ, List.get?_cons_zero, Option.some.injEq] at hb
      subst ha
      subst hb
      simp [swapAdj]
  | succ i ih =>
    match l, ha, hb with
    | x :: t, ha, hb =>
      simp only [List.get?_cons_succ] at ha hb
      have hrec := ih t ha hb
      simp only [swapAdj, List.get?_cons_succ, ha, hb] at hrec ⊢
      simp only [List.set_cons_succ, List.take_succ_cons, List.drop_succ_cons,
        List.cons_append]
      rw [hrec]

/-- C7: `moveVaultUp` at index 0, `moveVaultDown` at the last index, and
either operation with an unknown id leave the list unchanged (and the
embedding of these operations has no error outcome); in every other case
the target entry is swapped with its immediate neighbor, every untouched
entry staying in place. -/
theorem moveVault_boundary_and_swap (vaults : List VaultEntry) (id : String) :
    (vaults.findIdx? (fun v => v.id == id) = none →
      moveVaultUp vaults id = vaults ∧ moveVaultDown vaults id = vaults) ∧
    (vaults.findIdx? (fun v => v.id == id) = some 0 →
      moveVaultUp vaults id = vaults) ∧
    (∀ j, vaults.findIdx? (fun v => v.id == id) = some j → j + 1 = vaults.length →
      moveVaultDown vaults id = vaults) ∧
    (∀ i a b, vaults.findIdx? (fun v => v.id == id) = some (i + 1) →
      vaults.get? i = some a → vaults.get? (i + 1) = some b →
      moveVaultUp vaults id = vaults.take i ++ b :: a :: vaults.drop (i + 2)) ∧
    (∀ j a b, vaults.findIdx? (fun v => v.id == id) = some j →
      j + 1 < vaults.length →
      vaults.get? j = some a → vaults.get? (j + 1) = some b →
      moveVaultDown vaults id = vaults.take j ++ b :: a :: vaults.drop (j + 2)) := by
  refine ⟨?_, ?_, ?_, ?_, ?_⟩
  · intro h
    constructor
    · simp [moveVaultUp, h]
    · simp [moveVaultDown, h]
  · intro h
    simp [moveVaultUp, h]
  · intro j h hlen
    simp [moveVaultDown, h, hlen]
  · intro i a b h ha hb
    simp only [moveVaultUp, h]
    exact swapAdj_eq vaults i a b ha hb
  · intro j a b h hlen ha hb
    simp only [moveVaultDown, h, if_neg (by omega : ¬ j + 1 ≥ vaults.length)]
    exact swapAdj_eq vaults j a b ha hb

/-- Witness for C7 on a concrete three-vault list: top/bottom/unknown-id
no-ops, and the two interior swaps. -/
theorem moveVault_boundary_and_swap_witness :
    moveVaultUp [⟨"a", "A", "p1"⟩, ⟨"b", "B", "p2"⟩, ⟨"c", "C", "p3"⟩] "a" =
      [⟨"a", "A", "p1"⟩, ⟨"b", "B", "p2"⟩, ⟨"c", "C", "p3"⟩] ∧
    moveVaultDown [⟨"a", "A", "p1"⟩, ⟨"b", "B", "p2"⟩, ⟨"c", "C", "p3"⟩] "c" =
      [⟨"a", "A", "p1"⟩, ⟨"b", "B", "p2"⟩, ⟨"c", "C", "p3"⟩] ∧
    moveVaultUp [⟨"a", "A", "p1"⟩, ⟨"b", "B", "p2"⟩, ⟨"c", "C", "p3"⟩] "zz" =
      [⟨"a", "A", "p1"⟩, ⟨"b", "B", "p2"⟩, ⟨"c", "C", "p3"⟩] ∧
    moveVaultUp [⟨"a", "A", "p1"⟩, ⟨"b", "B", "p2"⟩, ⟨"c", "C", "p3"⟩] "b" =
      [⟨"b", "B", "p2"⟩, ⟨"a", "A", "p1"⟩, ⟨"c", "C", "p3"⟩] ∧
    moveVaultDown [⟨"a", "A", "p1"⟩, ⟨"b", "B", "p2"⟩, ⟨"c", "C", "p3"⟩] "b" =
      [⟨"a", "A", "p1"⟩, ⟨"c", "C", "p3"⟩, ⟨"b", "B", "p2"⟩] := by
  have h := moveVault_boundary_and_swap
    [⟨"a", "A", "p1"⟩, ⟨"b", "B", "p2"⟩, ⟨"c", "C", "p3"⟩] "a"
  have h2 := moveVault_boundary_and_swap
    [⟨"a", "A", "p1"⟩, ⟨"b", "B", "p2"⟩, ⟨"c", "C", "p3"⟩] "c"
  have h3 := moveVault_boundary_and_swap
    [⟨"a", "A", "p1"⟩, ⟨"b", "B", "p2"⟩, ⟨"c", "C", "p3"⟩] "zz"
  have h4 := moveVault_boundary_and_swap
    [⟨"a", "A", "p1"⟩, ⟨"b", "B", "p2"⟩, ⟨"c", "C", "p3"⟩] "b"
  refine ⟨h.2.1 (by decide), h2.2.2.1 2 (by decide) (by decide),
    (h3.1 (by decide)).1, ?_, ?_⟩
  · rw [h4.2.2.2.1 0 ⟨"a", "A", "p1"⟩ ⟨"b", "B", "p2"⟩ (by decide) (by decide) (by decide)]
    decide
  · rw [h4.2.2.2.2 1 ⟨"b", "B", "p2"⟩ ⟨"c", "C", "p3"⟩ (by decide) (by decide)
      (by decide) (by decide)]
    decide

/-- Helper for C8: starting from the image of an already-processed prefix,
folding `addRecentFile` over the remaining (globally duplicate-free) paths
yields the reverse of all processed paths, truncated to 10. -/
theorem foldl_addRecentFile_nodup (ps : List String) :
    ∀ qs : List String, (qs ++ ps).Nodup →
      List.foldl addRecentFile (qs.reverse.take 10) ps = (qs ++ ps).reverse.take 10 := by
  induction ps with
  | nil =>
    intro qs _
    simp
  | cons p rest ih =>
    intro qs hnd
    have hpqs : p ∉ qs := by
      rcases List.nodup_append.mp hnd with ⟨-, -, hdisj⟩
      intro hmem
      exact hdisj hmem (List.mem_cons_self p rest)
    have hfilter : (qs.reverse.take 10).filter (fun f => f != p) = qs.reverse.take 10 := by
      refine List.filter_eq_self.mpr (fun x hx => ?_)
      have hxq : x ∈ qs := List.mem_reverse.mp (List.mem_of_mem_take hx)
      simp only [bne_iff_ne, ne_eq, decide_eq_true_eq]
      intro hxp
      exact hpqs (hxp ▸ hxq)
    have hstep : addRecentFile (qs.reverse.take 10) p = ((qs ++ [p]).reverse).take 10 := by
      simp only [addRecentFile, hfilter, List.reverse_append, List.reverse_cons,
        List.reverse_nil, List.nil_append, List.singleton_append]
      show (p :: qs.reverse.take 10).take 10 = (p :: qs.reverse).take 10
      show (p :: qs.reverse.take 10).take (9 + 1) = (p :: qs.reverse).take (9 + 1)
      simp [List.take_succ_cons, List.take_take]
    have hnd2 : ((qs ++ [p]) ++ rest).Nodup := by
      rw [List.append_assoc, List.singleton_append]
      exact hnd
    have := ih (qs ++ [p]) hnd2
    rw [List.foldl_cons, hstep, this, List.append_assoc, List.singleton_append]

/-- C8: after any `addRecentFile` call the list is at most 10 long, stays
duplicate-free, and starts with the path just added; along a whole
duplicate-free call sequence from the initial (empty) list the result is
exactly the most-recent-first reversal of the calls, truncated to 10, and
along any call sequence at all the result is duplicate-free and at most 10
long. -/
theorem recentFiles_bounded_mtf (l : List String) (p : String) (ps : List String) :
    (addRecentFile l p).length ≤ 10 ∧
    (l.Nodup → (addRecentFile l p).Nodup) ∧
    (addRecentFile l p).head? = some p ∧
    (ps.Nodup → List.foldl addRecentFile [] ps = ps.reverse.take 10) ∧
    (List.foldl addRecentFile [] ps).Nodup ∧
    (List.foldl addRecentFile [] ps).length ≤ 10 := by
  have hlen : ∀ (l : List String) (p : String), (addRecentFile l p).length ≤ 10 := by
    intro l p
    simp [addRecentFile, List.length_take]
  have hnodup : ∀ (l : List String) (p : String), l.Nodup → (addRecentFile l p).Nodup := by
    intro l p hl
    refine ((List.take_sublist _ _).nodup ?_)
    refine List.Nodup.cons ?_ (hl.filter _)
    intro hmem
    rcases List.mem_filter.mp hmem with ⟨-, hne⟩
    simp at hne
  have hfold : ∀ (ps : List String) (l : List String), l.Nodup → l.length ≤ 10 →
      (List.foldl addRecentFile l ps).Nodup ∧ (List.foldl addRecentFile l ps).length ≤ 10 := by
    intro ps
    induction ps with
    | nil => intro l h1 h2; exact ⟨h1, h2⟩
    | cons p rest ih =>
      intro l h1 _
      exact ih (addRecentFile l p) (hnodup l p h1) (hlen l p)
  refine ⟨hlen l p, hnodup l p, ?_, ?_, (hfold ps [] (by simp) (by simp)).1,
    (hfold ps [] (by simp) (by simp)).2⟩
  · show ((p :: l.filter (fun f => f != p)).take (9 + 1)).head? = some p
    simp [List.take_succ_cons]
  · intro hnd
    have := foldl_addRecentFile_nodup ps [] (by simpa using hnd)
    simpa using this

/-- Helper for C2: what a successful name validation guarantees. -/
theorem validateVaultName_valid_facts (name : String) (ev : List VaultEntry)
    (excl : Option String) (h : validateVaultName name ev excl = .valid) :
    jsTrim name = name ∧
    (ev.any (fun v => jsToLower v.name == jsToLower (jsTrim name) &&
      notExcluded v.id excl)) = false := by
  revert h
  simp only [validateVaultName]
  split_ifs with h1 h2 h3 h4 h5
  · intro h; cases h
  · intro h; cases h
  · intro h; cases h
  · intro h; cases h
  · intro h; cases h
  · intro _
    refine ⟨not_ne_iff.mp h1, ?_⟩
    revert h5
    cases ev.any (fun v => jsToLower v.name == jsToLower (jsTrim name) &&
      notExcluded v.id excl) <;> simp

/-- Helper for C2: replacing the key of the (unique) entry with a given id
by a fresh key not colliding with any other entry keeps the key list
duplicate-free. -/
theorem nodup_map_updated (key : VaultEntry → String) (id K : String) :
    ∀ (l : List VaultEntry),
      (l.map (fun v => v.id)).Nodup → (l.map key).Nodup →
      (∀ v ∈ l, v.id ≠ id → key v ≠ K) →
      (l.map (fun v => if v.id == id then K else key v)).Nodup := by
  intro l
  induction l with
  | nil => intro _ _ _; simp
  | cons v rest ih =>
    intro hids hnd hK
    simp only [List.map_cons, List.nodup_cons] at hids hnd ⊢
    obtain ⟨hvid, hidsr⟩ := hids
    obtain ⟨hvkey, hndr⟩ := hnd
    refine ⟨?_, ih hidsr hndr (fun u hu hid2 => hK u (List.mem_cons_of_mem v hu) hid2)⟩
    by_cases hv : v.id = id
    · rw [if_pos (by simp [hv])]
      intro hmem
      rcases List.mem_map.mp hmem with ⟨u, hu, hueq⟩
      have huid : u.id ≠ id := by
        intro hid2
        exact hvid (List.mem_map.mpr ⟨u, hu, by rw [hid2, hv]⟩)
      rw [if_neg (by simp [huid])] at hueq
      exact hK u (List.mem_cons_of_mem v hu) huid hueq
    · rw [if_neg (by simp [hv])]
      intro hmem
      rcases List.mem_map.mp hmem with ⟨u, hu, hueq⟩
      by_cases hu2 : u.id = id
      · rw [if_pos (by simp [hu2])] at hueq
        exact hK v (List.mem_cons_self v rest) hv hueq.symm
      · rw [if_neg (by simp [hu2])] at hueq
        exact hvkey (List.mem_map.mpr ⟨u, hu, hueq⟩)

/-- Helper for C2: the rename map only touches names, seen through any
path-based key; and through the name key it is an in-place key update. -/
theorem rename_map_keys (l : List VaultEntry) (id nm : String) :
    ((l.map (fun v => if v.id == id then { v with name := nm } else v)).map
        (fun v => jsToLower v.name) =
      l.map (fun v => if v.id == id then jsToLower nm else jsToLower v.name)) ∧
    ((l.map (fun v => if v.id == id then { v with name := nm } else v)).map
        (fun v => normalizePath v.path) =
      l.map (fun v => normalizePath v.path)) := by
  constructor
  · rw [List.map_map]
    refine List.map_congr_left (fun v _ => ?_)
    by_cases h : v.id = id <;> simp [h]
  · rw [List.map_map]
    refine List.map_congr_left (fun v _ => ?_)
    by_cases h : v.id = id <;> simp [h]

/-- Helper for C2: the path-update map only touches paths, seen through the
name key; and through the path key it is an in-place key update. -/
theorem repath_map_keys (l : List VaultEntry) (id np : String) :
    ((l.map (fun v => if v.id == id then { v with path := np } else v)).map
        (fun v => normalizePath v.path) =
      l.map (fun v => if v.id == id then normalizePath np else normalizePath v.path)) ∧
    ((l.map (fun v => if v.id == id then { v with path := np } else v)).map
        (fun v => jsToLower v.name) =
      l.map (fun v => jsToLower v.name)) := by
  constructor
  · rw [List.map_map]
    refine List.map_congr_left (fun v _ => ?_)
    by_cases h : v.id = id <;> simp [h]
  · rw [List.map_map]
    refine List.map_congr_left (fun v _ => ?_)
    by_cases h : v.id = id <;> simp [h]

/-- Helper for C2 and C7: the explicit decomposition of a list around two
adjacent positions. -/
theorem list_eq_take_cons_cons_drop (i : Nat) (a b : VaultEntry) :
    ∀ (l : List VaultEntry), l.get? i = some a → l.get? (i + 1) = some b →
      l = l.take i ++ a :: b :: l.drop (i + 2) := by
  induction i with
  | zero =>
    intro l ha hb
    match l, ha, hb with
    | x :: y :: t, ha, hb =>
      simp only [List.get?_cons_zero, Option.some.injEq] at ha
      simp only [List.get?_cons_succ, List.get?_cons_zero, Option.some.injEq] at hb
      subst ha
      subst hb
      simp
  | succ i ih =>
    intro l ha hb
    match l, ha, hb with
    | x :: t, ha, hb =>
      simp only [List.get?_cons_succ] at ha hb
      have := ih t ha hb
      simp only [List.take_succ_cons, List.drop_succ_cons, List.cons_append]
      exact congrArg (x :: ·) this

/-- Helper for C2: the adjacent swap is a permutation of the original
list. -/
theorem swapAdj_perm (l : List VaultEntry) (i : Nat) (h2 : i + 1 < l.length) :
    List.Perm (swapAdj l i) l := by
  have h1 : i < l.length := by omega
  have ha : l.get? i = some (l.get ⟨i, h1⟩) := List.get?_eq_get h1
  have hb : l.get? (i + 1) = some (l.get ⟨i + 1, h2⟩) := List.get?_eq_get h2
  rw [swapAdj_eq l i _ _ ha hb]
  conv_rhs => rw [list_eq_take_cons_cons_drop i _ _ l ha hb]
  exact List.Perm.append_left _ (List.Perm.swap _ _ _)

/-- C2 counterexample: with two entries sharing an id (the claim has no
id-distinctness hypothesis), `renameVault` succeeds and renames both,
breaking case-insensitive name uniqueness. -/
theorem renameVault_duplicate_ids_break_uniqueness :
    namesUnique [⟨"a", "X", "p"⟩, ⟨"a", "Y", "q"⟩] ∧
    pathsUnique [⟨"a", "X", "p"⟩, ⟨"a", "Y", "q"⟩] ∧
    renameVault [⟨"a", "X", "p"⟩, ⟨"a", "Y", "q"⟩] "a" "Z" =
      .ok [⟨"a", "Z", "p"⟩, ⟨"a", "Z", "q"⟩] ∧
    ¬ namesUnique [⟨"a", "Z", "p"⟩, ⟨"a", "Z", "q"⟩] := by
  refine ⟨by unfold namesUnique; decide, by unfold pathsUnique; decide, rfl,
    by unfold namesUnique; decide⟩

/-- C2 (amended): on a vault list with pairwise distinct ids, case-insensitively
distinct names and normalization-distinct paths, every successful CRUD or
reorder operation yields a list satisfying both uniqueness properties
again. -/
theorem vault_crud_preserves_uniqueness (vaults : List VaultEntry)
    (hid : idsUnique vaults) (hn : namesUnique vaults) (hp : pathsUnique vaults) :
    (∀ name path newId ve l2, addVault vaults name path newId = .ok (ve, l2) →
      namesUnique l2 ∧ pathsUnique l2) ∧
    (∀ id newName l2, renameVault vaults id newName = .ok l2 →
      namesUnique l2 ∧ pathsUnique l2) ∧
    (∀ id newPath acc l2, updateVaultPath vaults id newPath acc = .ok l2 →
      namesUnique l2 ∧ pathsUnique l2) ∧
    (∀ id l2, deleteVault vaults id = .ok l2 →
      namesUnique l2 ∧ pathsUnique l2) ∧
    (∀ id, namesUnique (moveVaultUp vaults id) ∧
      pathsUnique (moveVaultUp vaults id)) ∧
    (∀ id, namesUnique (moveVaultDown vaults id) ∧
      pathsUnique (moveVaultDown vaults id)) := by
  refine ⟨?_, ?_, ?_, ?_, ?_, ?_⟩
  · -- addVault
    intro name path newId ve l2 h
    unfold addVault at h
    split at h
    next e heq => simp at h
    next hval =>
      split at h
      next hdup => simp at h
      next hdup =>
        simp only [Except.ok.injEq, Prod.mk.injEq] at h
        obtain ⟨hve, hl2⟩ := h
        subst hl2
        obtain ⟨htrim, hany⟩ := validateVaultName_valid_facts name vaults none hval
        have hnames : ∀ v ∈ vaults, jsToLower v.name ≠ jsToLower (jsTrim name) := by
          intro v hv
          have := List.any_eq_false.mp hany v hv
          simpa [notExcluded] using this
        have hdupF : isPathDuplicate path vaults none = false := by
          revert hdup
          cases isPathDuplicate path vaults none <;> simp
        have hpaths : ∀ v ∈ vaults, normalizePath v.path ≠ normalizePath path := by
          intro v hv
          unfold isPathDuplicate at hdupF
          have := List.any_eq_false.mp hdupF v hv
          simpa [notExcluded] using this
        constructor
        · unfold namesUnique
          rw [List.map_append]
          refine List.nodup_append.mpr ⟨hn, by simp, ?_⟩
          intro k hk hk2
          simp only [List.map_cons, List.map_nil, List.mem_singleton] at hk2
          rcases List.mem_map.mp hk with ⟨v, hv, hveq⟩
          exact hnames v hv (by rw [hveq, hk2])
        · unfold pathsUnique
          rw [List.map_append]
          refine List.nodup_append.mpr ⟨hp, by simp, ?_⟩
          intro k hk hk2
          simp only [List.map_cons, List.map_nil, List.mem_singleton] at hk2
          rcases List.mem_map.mp hk with ⟨v, hv, hveq⟩
          exact hpaths v hv (by rw [hveq, hk2])
  · -- renameVault
    intro id newName l2 h
    unfold renameVault at h
    split at h
    · simp at h
    · split at h
      next e heq => simp at h
      next heq =>
        simp only [Except.ok.injEq] at h
        subst h
        obtain ⟨htrim, hany⟩ := validateVaultName_valid_facts newName vaults (some id) heq
        have hkey : ∀ v ∈ vaults, v.id ≠ id →
            jsToLower v.name ≠ jsToLower (jsTrim newName) := by
          intro v hv hvid hEq
          have := List.any_eq_false.mp hany v hv
          simp only [notExcluded, Bool.and_eq_true, beq_iff_eq, bne_iff_ne] at this
          exact this ⟨hEq, hvid⟩
        constructor
        · unfold namesUnique
          rw [(rename_map_keys vaults id (jsTrim newName)).1]
          exact nodup_map_updated _ id _ vaults hid hn hkey
        · unfold pathsUnique
          rw [(rename_map_keys vaults id (jsTrim newName)).2]
          exact hp
  · -- updateVaultPath
    intro id newPath acc l2 h
    unfold updateVaultPath at h
    split at h
    · simp at h
    · split at h
      · simp at h
      · split at h
        · simp at h
        next hdup hacc =>
          simp only [Except.ok.injEq] at h
          subst h
          have hdupF : isPathDuplicate newPath vaults (some id) = false := by
            revert hdup
            cases isPathDuplicate newPath vaults (some id) <;> simp
          have hkey : ∀ v ∈ vaults, v.id ≠ id →
              normalizePath v.path ≠ normalizePath newPath := by
            intro v hv hvid hEq
            unfold isPathDuplicate at hdupF
            have := List.any_eq_false.mp hdupF v hv
            simp only [notExcluded, Bool.and_eq_true, beq_iff_eq, bne_iff_ne] at this
            exact this ⟨hEq, hvid⟩
          constructor
          · unfold namesUnique
            rw [(repath_map_keys vaults id newPath).2]
            exact hn
          · unfold pathsUnique
            rw [(repath_map_keys vaults id newPath).1]
            exact nodup_map_updated _ id _ vaults hid hp hkey
  · -- deleteVault
    intro id l2 h
    unfold deleteVault at h
    split at h
    · simp at h
    · simp only [Except.ok.injEq] at h
      subst h
      have hsub : (vaults.filter (fun v => v.id != id)).Sublist vaults :=
        List.filter_sublist vaults
      exact ⟨hn.sublist (hsub.map _), hp.sublist (hsub.map _)⟩
  · -- moveVaultUp
    intro id
    cases hf : vaults.findIdx? (fun v => v.id == id) with
    | none =>
      simp only [moveVaultUp, hf]
      exact ⟨hn, hp⟩
    | some j =>
      cases j with
      | zero =>
        simp only [moveVaultUp, hf]
        exact ⟨hn, hp⟩
      | succ i =>
        simp only [moveVaultUp, hf]
        have hlen : i + 1 < vaults.length :=
          (List.findIdx?_eq_some_iff_findIdx_eq.mp hf).1
        have hperm := swapAdj_perm vaults i hlen
        exact ⟨(hperm.map _).symm.nodup hn, (hperm.map _).symm.nodup hp⟩
  · -- moveVaultDown
    intro id
    cases hf : vaults.findIdx? (fun v => v.id == id) with
    | none =>
      simp only [moveVaultDown, hf]
      exact ⟨hn, hp⟩
    | some j =>
      by_cases hlen : j + 1 ≥ vaults.length
      · simp only [moveVaultDown, hf, if_pos hlen]
        exact ⟨hn, hp⟩
      · simp only [moveVaultDown, hf, if_neg hlen]
        have hperm := swapAdj_perm vaults j (by omega)
        exact ⟨(hperm.map _).symm.nodup hn, (hperm.map _).symm.nodup hp⟩

/-- Witness for C2 (amended): adding a third vault with a fresh name and
path to a concrete well-formed two-vault list keeps both uniqueness
properties. -/
theorem vault_crud_preserves_uniqueness_witness :
    namesUnique [⟨"a", "A", "pa"⟩, ⟨"b", "B", "pb"⟩, ⟨"c", "C", "pc"⟩] ∧
    pathsUnique [⟨"a", "A", "pa"⟩, ⟨"b", "B", "pb"⟩, ⟨"c", "C", "pc"⟩] := by
  have h := vault_crud_preserves_uniqueness [⟨"a", "A", "pa"⟩, ⟨"b", "B", "pb"⟩]
    (by unfold idsUnique; decide) (by unfold namesUnique; decide)
    (by unfold pathsUnique; decide)
  exact h.1 "C" "pc" "c" ⟨"c", "C", "pc"⟩
    [⟨"a", "A", "pa"⟩, ⟨"b", "B", "pb"⟩, ⟨"c", "C", "pc"⟩] rfl

/-- C3 counterexample: the claim's character class allows a plain space
only, so a name with an interior tab should be invalid; the code's regexp
class is whitespace (`\s`), so the code accepts it. -/
theorem validateVaultName_accepts_inner_tab :
    (validateVaultName "a\tb" [] none).isValid = true ∧
    specNameInvalid "a\tb" [] none = true := by decide

/-- C3 (amended): `validateVaultName` returns invalid exactly when the name
differs from its trimmed form, the trimmed length is 0 or exceeds 50, the
name has a character outside letters/digits/whitespace/underscore/hyphen
(the regexp class with `\s`, not the plain space alone), or another
non-excluded entry has the same name case-insensitively; the three concrete
examples behave as the spec states. -/
theorem validateVaultName_characterization :
    (∀ (name : String) (existingVaults : List VaultEntry) (excludeId : Option String),
      (validateVaultName name existingVaults excludeId).isValid = false ↔
        amendedNameInvalid name existingVaults excludeId = true) ∧
    (validateVaultName " Trip " [] none).isValid = false ∧
    (validateVaultName "Trip" [⟨"1", "trip", "p"⟩] none).isValid = false ∧
    (validateVaultName "My-Vault_2" [] none).isValid = true := by
  refine ⟨?_, by decide, by decide, by decide⟩
  intro name ev excl
  simp only [validateVaultName, amendedNameInvalid]
  split_ifs with h1 h2 h3 h4 h5
  · refine iff_of_true rfl ?_
    have ha : (name != jsTrim name) = true := bne_iff_ne.mpr (Ne.symm h1)
    simp only [ha, Bool.true_or, Bool.or_true]
  · refine iff_of_true rfl ?_
    have hb : ((jsTrim name).data.length == 0) = true := by
      have : (jsTrim name).data.length = 0 := by omega
      simp [this]
    simp only [hb, Bool.true_or, Bool.or_true]
  · refine iff_of_true rfl ?_
    have hc : decide ((jsTrim name).data.length > 50) = true := decide_eq_true h3
    simp only [hc, Bool.or_true, Bool.true_or]
  · refine iff_of_true rfl ?_
    have hEq : jsTrim name = name := not_ne_iff.mp h1
    have hlen : (jsTrim name).data.length ≠ 0 := by omega
    have hne : (jsTrim name).data.isEmpty = false := by
      cases hl : (jsTrim name).data with
      | nil => rw [hl] at hlen; simp at hlen
      | cons c t => simp
    have hpatF : vaultNamePattern (jsTrim name) = false := by
      revert h4
      cases vaultNamePattern (jsTrim name) <;> simp
    have hallF : (jsTrim name).data.all vaultNameChar = false := by
      revert hpatF
      simp [vaultNamePattern, hne]
    rcases List.all_eq_false.mp hallF with ⟨c, hcm, hcv⟩
    have hd : name.data.any (fun c => !vaultNameChar c) = true := by
      rw [← hEq]
      exact List.any_eq_true.mpr ⟨c, hcm, by simpa using hcv⟩
    simp only [hd, Bool.true_or, Bool.or_true]
  · refine iff_of_true rfl ?_
    have hEq : jsTrim name = name := not_ne_iff.mp h1
    rw [hEq] at h5
    simp only [h5, Bool.true_or, Bool.or_true]
  · have hEq : jsTrim name = name := not_ne_iff.mp h1
    refine iff_of_false (by simp [ValidationResult.isValid]) ?_
    have ha : (name != jsTrim name) = false := by
      rw [hEq]
      simp
    have hb : ((jsTrim name).data.length == 0) = false := by
      simp only [beq_eq_false_iff_ne, ne_eq]
      omega
    have hc : decide ((jsTrim name).data.length > 50) = false := decide_eq_false h3
    have hpatT : vaultNamePattern (jsTrim name) = true := by
      revert h4
      cases vaultNamePattern (jsTrim name) <;> simp
    have hallT : (jsTrim name).data.all vaultNameChar = true := by
      have h := hpatT
      simp only [vaultNamePattern, Bool.and_eq_true] at h
      exact h.2
    have hd : name.data.any (fun c => !vaultNameChar c) = false := by
      rw [← hEq]
      refine List.any_eq_false.mpr (fun c hcm => ?_)
      have := List.all_eq_true.mp hallT c hcm
      simp [this]
    have he : (ev.any fun v => jsToLower v.name == jsToLower name &&
        notExcluded v.id excl) = false := by
      rw [← hEq]
      revert h5
      cases ev.any fun v => jsToLower v.name == jsToLower (jsTrim name) &&
        notExcluded v.id excl <;> simp
    intro habs
    rw [ha, hb, hc, hd, he] at habs
    cases habs

/-- Helper for C1: the probe trace is the failing prefix of the path list
followed by the first passing path, if any. -/
theorem probeLoop_fst (acc : String → Bool) :
    ∀ (l : List VaultEntry) (i : Nat),
      (probeLoop acc l i).1 =
        (l.map (fun v => v.path)).takeWhile (fun p => !acc p) ++
        ((l.map (fun v => v.path)).dropWhile (fun p => !acc p)).take 1 := by
  intro l
  induction l with
  | nil => intro i; rfl
  | cons v rest ih =>
    intro i
    by_cases hacc : acc v.path
    · simp [probeLoop, hacc]
    · simp only [Bool.not_eq_true] at hacc
      simp [probeLoop, hacc, ih (i + 1)]

/-- Helper for C1: the probe loop finds exactly the first entry whose path
passes the accessibility check. -/
theorem probeLoop_snd_fst (acc : String → Bool) :
    ∀ (l : List VaultEntry) (i : Nat),
      ((probeLoop acc l i).2).map Prod.fst = l.find? (fun v => acc v.path) := by
  intro l
  induction l with
  | nil => intro i; rfl
  | cons v rest ih =>
    intro i
    by_cases hacc : acc v.path
    · simp [probeLoop, hacc, List.find?_cons_of_pos]
    · simp only [Bool.not_eq_true] at hacc
      simp [probeLoop, hacc, List.find?_cons_of_neg, ih (i + 1)]

/-- Helper for C1: started past index 0, the probe loop always reports a
fallback for the entry it finds. -/
theorem probeLoop_snd_pos (acc : String → Bool) :
    ∀ (l : List VaultEntry) (i : Nat), 0 < i →
      (probeLoop acc l i).2 =
        (l.find? (fun v => acc v.path)).map (fun v => (v, true)) := by
  intro l
  induction l with
  | nil => intro i _; rfl
  | cons v rest ih =>
    intro i hi
    by_cases hacc : acc v.path
    · simp [probeLoop, hacc, List.find?_cons_of_pos, hi]
    · simp only [Bool.not_eq_true] at hacc
      simp [probeLoop, hacc, List.find?_cons_of_neg, ih (i + 1) (by omega)]

/-- Helper for C1: the resolver when the head vault is accessible. -/
theorem initVaults_cons_head_ok (acc : String → Bool) (v : VaultEntry)
    (rest : List VaultEntry) (hacc : acc v.path = true) :
    initVaults (v :: rest) acc =
      { probed := [v.path], activated := some v, usedFallback := false,
        fallbackVaultName := none, errorSet := false } := by
  simp [initVaults, probeLoop, hacc]

/-- Helper for C1: the resolver when the head fails but a later vault
passes. -/
theorem initVaults_cons_fallback (acc : String → Bool) (v w : VaultEntry)
    (rest : List VaultEntry) (hacc : acc v.path = false)
    (hfind : rest.find? (fun u => acc u.path) = some w) :
    initVaults (v :: rest) acc =
      { probed := v.path :: (probeLoop acc rest 1).1, activated := some w,
        usedFallback := true, fallbackVaultName := some w.name,
        errorSet := false } := by
  have h2 := probeLoop_snd_pos acc rest 1 (by omega)
  rw [hfind] at h2
  simp [initVaults, probeLoop, hacc, h2]

/-- Helper for C1: the resolver when every probe fails. -/
theorem initVaults_cons_all_fail (acc : String → Bool) (v : VaultEntry)
    (rest : List VaultEntry) (hacc : acc v.path = false)
    (hfind : rest.find? (fun u => acc u.path) = none) :
    initVaults (v :: rest) acc =
      { probed := v.path :: (probeLoop acc rest 1).1, activated := none,
        usedFallback := false, fallbackVaultName := none, errorSet := true } := by
  have h2 := probeLoop_snd_pos acc rest 1 (by omega)
  rw [hfind] at h2
  simp [initVaults, probeLoop, hacc, h2]

/-- C1: the activation resolver probes the persisted list strictly in
order, stopping at the first entry passing the accessibility check (the
probe trace is the failing prefix plus that single success); it activates
exactly the first passing entry; fallback-used is false precisely when the
activated entry is the head, and otherwise the activated vault's name is
reported; an empty list activates nothing and sets no error; a non-empty
list whose entries all fail activates nothing and sets the
all-vaults-inaccessible error. -/
theorem vault_activation_resolution (vaults : List VaultEntry)
    (acc : String → Bool) :
    (initVaults vaults acc).probed =
      (vaults.map (fun v => v.path)).takeWhile (fun p => !acc p) ++
      ((vaults.map (fun v => v.path)).dropWhile (fun p => !acc p)).take 1 ∧
    (initVaults vaults acc).activated = vaults.find? (fun v => acc v.path) ∧
    (∀ v, (initVaults vaults acc).activated = some v →
      ((initVaults vaults acc).usedFallback = false ↔ vaults.head? = some v) ∧
      (initVaults vaults acc).fallbackVaultName =
        (if (initVaults vaults acc).usedFallback then some v.name else none) ∧
      (initVaults vaults acc).errorSet = false) ∧
    (vaults = [] →
      (initVaults vaults acc).activated = none ∧
      (initVaults vaults acc).errorSet = false ∧
      (initVaults vaults acc).usedFallback = false) ∧
    (vaults ≠ [] → (∀ v ∈ vaults, acc v.path = false) →
      (initVaults vaults acc).activated = none ∧
      (initVaults vaults acc).errorSet = true) := by
  match vaults with
  | [] =>
    refine ⟨rfl, rfl, ?_, fun _ => ⟨rfl, rfl, rfl⟩, fun h _ => absurd rfl h⟩
    intro v hv
    cases hv
  | v :: rest =>
    by_cases hacc : acc v.path
    · rw [initVaults_cons_head_ok acc v rest hacc]
      refine ⟨?_, ?_, ?_, ?_, ?_⟩
      · simp [hacc]
      · simp [List.find?_cons_of_pos, hacc]
      · intro w hw
        simp only [Option.some.injEq] at hw
        subst hw
        simp
      · intro h
        cases h
      · intro _ hall
        have := hall v (List.mem_cons_self v rest)
        rw [hacc] at this
        cases this
    · have haccF : acc v.path = false := by
        simpa using hacc
      cases hfind : rest.find? (fun u => acc u.path) with
      | some w =>
        rw [initVaults_cons_fallback acc v w rest haccF hfind]
        refine ⟨?_, ?_, ?_, ?_, ?_⟩
        · simp [haccF, probeLoop_fst acc rest 1]
        · simp [List.find?_cons_of_neg, haccF, hfind]
        · intro u hu
          simp only [Option.some.injEq] at hu
          subst hu
          refine ⟨?_, rfl, rfl⟩
          constructor
          · intro h
            cases h
          · intro h
            simp only [List.head?_cons, Option.some.injEq] at h
            have hw : acc w.path = true := by
              have := List.find?_some hfind
              simpa using this
            rw [← h] at hw
            rw [haccF] at hw
            cases hw
        · intro h
          cases h
        · intro _ hall
          have hw : acc w.path = true := by
            have := List.find?_some hfind
            simpa using this
          have hmem : w ∈ rest := List.mem_of_find?_eq_some hfind
          have := hall w (List.mem_cons_of_mem v hmem)
          rw [hw] at this
          cases this
      | none =>
        rw [initVaults_cons_all_fail acc v rest haccF hfind]
        refine ⟨?_, ?_, ?_, ?_, ?_⟩
        · simp [haccF, probeLoop_fst acc rest 1]
        · simp [List.find?_cons_of_neg, haccF, hfind]
        · intro u hu
          cases hu
        · intro h
          cases h
        · intro _ _
          exact ⟨rfl, rfl⟩

/-- Witness for C1, mirroring the spec's worked example: with vaults
`[A(inaccessible), B(accessible), C(accessible)]` activation resolves to
`B` with fallback reported under `B`'s name, probing stops after `B`, and
with every vault inaccessible the error is set. -/
theorem vault_activation_resolution_witness :
    (initVaults [⟨"a", "A", "pa"⟩, ⟨"b", "B", "pb"⟩, ⟨"c", "C", "pc"⟩]
      (fun p => p != "pa")).activated = some ⟨"b", "B", "pb"⟩ ∧
    (initVaults [⟨"a", "A", "pa"⟩, ⟨"b", "B", "pb"⟩, ⟨"c", "C", "pc"⟩]
      (fun p => p != "pa")).probed = ["pa", "pb"] ∧
    (initVaults [⟨"a", "A", "pa"⟩, ⟨"b", "B", "pb"⟩, ⟨"c", "C", "pc"⟩]
      (fun p => p != "pa")).usedFallback = true ∧
    (initVaults [⟨"a", "A", "pa"⟩, ⟨"b", "B", "pb"⟩, ⟨"c", "C", "pc"⟩]
      (fun p => p != "pa")).fallbackVaultName = some ("B") ∧
    (initVaults [⟨"a", "A", "pa"⟩, ⟨"b", "B", "pb"⟩]
      (fun _ => false)).activated = none ∧
    (initVaults [⟨"a", "A", "pa"⟩, ⟨"b", "B", "pb"⟩]
      (fun _ => false)).errorSet = true := by
  have h := vault_activation_resolution
    [⟨"a", "A", "pa"⟩, ⟨"b", "B", "pb"⟩, ⟨"c", "C", "pc"⟩] (fun p => p != "pa")
  have hact : (initVaults [⟨"a", "A", "pa"⟩, ⟨"b", "B", "pb"⟩, ⟨"c", "C", "pc"⟩]
      (fun p => p != "pa")).activated = some ⟨"b", "B", "pb"⟩ := by
    rw [h.2.1]
    decide
  have hfb := h.2.2.1 ⟨"b", "B", "pb"⟩ hact
  have hfail := vault_activation_resolution
    [⟨"a", "A", "pa"⟩, ⟨"b", "B", "pb"⟩] (fun _ => false)
  have hfails := hfail.2.2.2.2 (by decide) (by decide)
  have hufb : (initVaults [⟨"a", "A", "pa"⟩, ⟨"b", "B", "pb"⟩, ⟨"c", "C", "pc"⟩]
      (fun p => p != "pa")).usedFallback = true := by
    rcases Bool.eq_false_or_eq_true
      ((initVaults [⟨"a", "A", "pa"⟩, ⟨"b", "B", "pb"⟩, ⟨"c", "C", "pc"⟩]
        (fun p => p != "pa")).usedFallback) with hb | hb
    · exact hb
    · exact absurd (hfb.1.mp hb) (by decide)
  refine ⟨hact, ?_, hufb, ?_, hfails.1, hfails.2⟩
  · rw [h.1]
    decide
  · rw [hfb.2.1, hufb]
    rfl

/-- Helper for C9: firing a batch of timers only ever removes toasts. -/
theorem toastFire_mem (due : List (Nat × Nat)) :
    ∀ (ts : List Toast) (t : Toast),
      t ∈ due.foldl (fun ts tm => ts.filter (fun tt => tt.id != tm.2)) ts → t ∈ ts := by
  induction due with
  | nil => intro ts t h; exact h
  | cons tm rest ih =>
    intro ts t h
    have := ih (ts.filter (fun tt => tt.id != tm.2)) t h
    exact (List.mem_filter.mp this).1

/-- Helper for C9: a toast none of the fired timers names survives the
batch. -/
theorem toastFire_keeps (due : List (Nat × Nat)) :
    ∀ (ts : List Toast) (t : Toast), t ∈ ts → (∀ tm ∈ due, tm.2 ≠ t.id) →
      t ∈ due.foldl (fun ts tm => ts.filter (fun tt => tt.id != tm.2)) ts := by
  induction due with
  | nil => intro ts t h _; exact h
  | cons tm rest ih =>
    intro ts t h hne
    refine ih _ t ?_ (fun tm2 h2 => hne tm2 (List.mem_cons_of_mem tm h2))
    refine List.mem_filter.mpr ⟨h, ?_⟩
    have := hne tm (List.mem_cons_self tm rest)
    simp [bne_iff_ne]
    exact fun hEq => this hEq.symm

/-- Helper for C9: after a batch containing a timer for id `i` fires, no
toast with id `i` remains. -/
theorem toastFire_removes (due : List (Nat × Nat)) :
    ∀ (ts : List Toast) (tm0 : Nat × Nat), tm0 ∈ due →
      ∀ t ∈ due.foldl (fun ts tm => ts.filter (fun tt => tt.id != tm.2)) ts,
        t.id ≠ tm0.2 := by
  induction due with
  | nil => intro ts tm0 h; cases h
  | cons tm rest ih =>
    intro ts tm0 h0 t ht
    rcases List.mem_cons.mp h0 with h0 | h0
    · subst h0
      have hmem : t ∈ ts.filter (fun tt => tt.id != tm0.2) := toastFire_mem rest _ t ht
      have := (List.mem_filter.mp hmem).2
      simpa [bne_iff_ne] using this
    · exact ih _ tm0 h0 t ht

/-- Helper for C9: `elapse` preserves "toast `i` is present and no pending
timer names it". -/
theorem toastElapse_keeps_untimed (s : ToastState) (i : Nat) (d : Nat)
    (htoast : ∃ t ∈ s.toasts, t.id = i) (htimer : ∀ tm ∈ s.timers, tm.2 ≠ i) :
    (∃ t ∈ (toastElapse s d).toasts, t.id = i) ∧
    (∀ tm ∈ (toastElapse s d).timers, tm.2 ≠ i) := by
  obtain ⟨t, ht, hti⟩ := htoast
  constructor
  · refine ⟨t, ?_, hti⟩
    refine toastFire_keeps _ _ t ht (fun tm h2 => ?_)
    have : tm ∈ s.timers := (List.mem_filter.mp h2).1
    rw [hti]
    exact htimer tm this
  · intro tm h2
    exact htimer tm (List.mem_filter.mp h2).1

/-- Helper for C9: iterated `elapse` preserves the same invariant. -/
theorem toastElapse_fold_keeps_untimed (ds : List Nat) :
    ∀ (s : ToastState) (i : Nat),
      (∃ t ∈ s.toasts, t.id = i) → (∀ tm ∈ s.timers, tm.2 ≠ i) →
      ∃ t ∈ (List.foldl toastElapse s ds).toasts, t.id = i := by
  induction ds with
  | nil => intro s i h _; exact h
  | cons d rest ih =>
    intro s i h1 h2
    have := toastElapse_keeps_untimed s i d h1 h2
    exact ih (toastElapse s d) i this.1 this.2

/-- C9: `add` appends the toast at the end of the queue; it schedules an
auto-removal timer exactly when `ttlMillis > 0`; a `ttlMillis = 0` toast
survives any sequence of elapsing time (it can only leave by explicit
dismiss or clear); a positive-ttl toast is present immediately after `add`
and gone once its ttl has elapsed, absent manual dismissal. -/
theorem toast_add_ttl_semantics (s : ToastState) (msg : String) (ty : ToastType)
    (d : Nat) :
    (toastAdd s msg ty d).1.toasts = s.toasts ++ [⟨s.idCounter + 1, msg, ty, d⟩] ∧
    (d = 0 → (toastAdd s msg ty d).1.timers = s.timers) ∧
    (0 < d →
      (toastAdd s msg ty d).1.timers = s.timers ++ [(s.now + d, s.idCounter + 1)]) ∧
    (s.wf = true → d = 0 → ∀ ds : List Nat,
      ∃ t ∈ (List.foldl toastElapse (toastAdd s msg ty d).1 ds).toasts,
        t.id = (toastAdd s msg ty d).2) ∧
    (0 < d →
      (∃ t ∈ (toastAdd s msg ty d).1.toasts, t.id = (toastAdd s msg ty d).2) ∧
      (s.wf = true → ∀ e, d ≤ e →
        ∀ t ∈ (toastElapse (toastAdd s msg ty d).1 e).toasts,
          t.id ≠ (toastAdd s msg ty d).2)) := by
  refine ⟨rfl, ?_, ?_, ?_, ?_⟩
  · intro h0
    simp [toastAdd, h0]
  · intro hpos
    simp [toastAdd, Nat.pos_iff_ne_zero.mp hpos]
  · intro hwf h0 ds
    refine toastElapse_fold_keeps_untimed ds _ _ ?_ ?_
    · exact ⟨⟨s.idCounter + 1, msg, ty, d⟩, by simp [toastAdd], rfl⟩
    · intro tm hmem
      have htm : tm ∈ s.timers := by
        simpa [toastAdd, h0] using hmem
      have := List.all_eq_true.mp hwf tm htm
      simp only [decide_eq_true_eq] at this
      simp [toastAdd]
      omega
  · intro hpos
    constructor
    · exact ⟨⟨s.idCounter + 1, msg, ty, d⟩, by simp [toastAdd], rfl⟩
    · intro hwf e he t ht
      have hdue : (s.now + d, s.idCounter + 1) ∈
          ((toastAdd s msg ty d).1.timers.filter
            (fun tm => tm.1 ≤ (toastAdd s msg ty d).1.now + e)) := by
        refine List.mem_filter.mpr ⟨?_, ?_⟩
        · show (s.now + d, s.idCounter + 1) ∈
            (if 0 < d then s.timers ++ [(s.now + d, s.idCounter + 1)] else s.timers)
          rw [if_pos hpos]
          simp
        · simp only [toastAdd, decide_eq_true_eq]
          omega
      have := toastFire_removes _ _ _ hdue t ht
      simpa [toastAdd] using this

/-- Witness for C9 on the initial state: a persistent (`ttl = 0`) toast
survives elapsing time, and a `ttl = 50` toast is present after `add` and
gone after 60 time units. -/
theorem toast_add_ttl_semantics_witness :
    (∃ t ∈ (List.foldl toastElapse
        (toastAdd ToastState.initial ("hi") ToastType.info 0).1 [60, 60]).toasts,
      t.id = (toastAdd ToastState.initial ("hi") ToastType.info 0).2) ∧
    (∃ t ∈ (toastAdd ToastState.initial ("hi") ToastType.info 50).1.toasts,
      t.id = (toastAdd ToastState.initial ("hi") ToastType.info 50).2) ∧
    (∀ t ∈ (toastElapse
        (toastAdd ToastState.initial ("hi") ToastType.info 50).1 60).toasts,
      t.id ≠ (toastAdd ToastState.initial ("hi") ToastType.info 50).2) := by
  have h0 := toast_add_ttl_semantics ToastState.initial ("hi") ToastType.info 0
  have h50 := toast_add_ttl_semantics ToastState.initial ("hi") ToastType.info 50
  exact ⟨h0.2.2.2.1 (by decide) rfl [60, 60],
    (h50.2.2.2.2 (by decide)).1,
    (h50.2.2.2.2 (by decide)).2 (by decide) 60 (by decide)⟩

/-- Witness for C8: twelve distinct paths added in order retain exactly the
last ten, most recent first; and a duplicate re-add moves to the front. -/
theorem recentFiles_bounded_mtf_witness :
    List.foldl addRecentFile []
      ["p1", "p2", "p3", "p4", "p5", "p6", "p7", "p8", "p9", "p10", "p11", "p12"] =
      ["p12", "p11", "p10", "p9", "p8", "p7", "p6", "p5", "p4", "p3"] ∧
    (addRecentFile ["p2", "p1"] "p1").head? = some ("p1") ∧
    (addRecentFile ["p2", "p1"] "p1").Nodup := by
  have h := recentFiles_bounded_mtf ["p2", "p1"] "p1"
    ["p1", "p2", "p3", "p4", "p5", "p6", "p7", "p8", "p9", "p10", "p11", "p12"]
  refine ⟨?_, h.2.2.1, h.2.1 (by decide)⟩
  rw [h.2.2.2.1 (by decide)]
  decide

end BrainDown
